import Mathlib

/-!
Verification of the Composite fleet model (`src/Lab2/main.py`).

The development shallowly embeds the Python program: the component tree
(`FleetComponent` with its `Vehicle` leaf and `FleetGroup` composite),
the console application state (`FleetApp`, holding the children of the
root group and the tag-to-group dictionary), and the input-handling
functions (`ask_energy_source`, `handle_add_vehicle`).  Python strings
are modelled as Lean `String`s; raised exceptions are modelled with
`Except PyError`; mutation of the aliased group objects is modelled by
indexing the groups through their position in the root's child list.
-/

/-- Exceptions raised by the Python code paths modelled here:
`NotImplementedError` (from the `FleetComponent` base class),
`ValueError` (from `list.remove` and `int`), and `EOFError`
(from `input` at end of input). -/
inductive PyError where
  | notImplementedError (msg : String)
  | valueError (msg : String)
  | eofError
deriving DecidableEq, Repr

instance {ε α : Type} [DecidableEq ε] [DecidableEq α] : DecidableEq (Except ε α) := fun a b =>
  match a, b with
  | .ok x, .ok y =>
    if h : x = y then isTrue (by rw [h]) else isFalse (fun hh => h (by injection hh))
  | .error x, .error y =>
    if h : x = y then isTrue (by rw [h]) else isFalse (fun hh => h (by injection hh))
  | .ok _, .error _ => isFalse (fun h => Except.noConfusion h)
  | .error _, .ok _ => isFalse (fun h => Except.noConfusion h)

/-- The component tree of `main.py`: `vehicle` embeds the `Vehicle`
dataclass (fields `name`, `energy_source`), `group` embeds `FleetGroup`
(field `name` and the ordered child list `_children`). -/
inductive FleetComponent where
  | vehicle (name energy_source : String)
  | group (name : String) (children : List FleetComponent)

mutual

/-- Structural equality on components.  Python compares `Vehicle`s by
dataclass field equality; `FleetGroup`s compare by object identity,
which a value-level embedding renders as structural equality. -/
def beqC : FleetComponent → FleetComponent → Bool
  | .vehicle n e, .vehicle n' e' => n == n' && e == e'
  | .group n cs, .group n' cs' => n == n' && beqL cs cs'
  | _, _ => false

def beqL : List FleetComponent → List FleetComponent → Bool
  | [], [] => true
  | c :: cs, d :: ds => beqC c d && beqL cs ds
  | _, _ => false

end

mutual

theorem beqC_iff : ∀ a b, beqC a b = true ↔ a = b
  | .vehicle _ _, .vehicle _ _ => by simp [beqC]
  | .vehicle _ _, .group _ _ => by simp [beqC]
  | .group _ _, .vehicle _ _ => by simp [beqC]
  | .group _ cs, .group _ cs' => by simp [beqC, beqL_iff cs cs']

theorem beqL_iff : ∀ as bs, beqL as bs = true ↔ as = bs
  | [], [] => by simp [beqL]
  | [], _ :: _ => by simp [beqL]
  | _ :: _, [] => by simp [beqL]
  | a :: as, b :: bs => by simp [beqL, beqC_iff a b, beqL_iff as bs]

end

instance : DecidableEq FleetComponent := fun a b =>
  decidable_of_iff (beqC a b = true) (beqC_iff a b)

/-- `" " * indent`. -/
def spaces (n : Nat) : String := String.mk (List.replicate n ' ')

/-- `"\n".join(lines)`. -/
def joinNL : List String → String
  | [] => ""
  | [s] => s
  | s :: rest => s ++ "\n" ++ joinNL rest

mutual

/-- `display` from `main.py`: a `Vehicle` renders as
`" " * indent + f"{self.name} ({self.energy_source})"`; a `FleetGroup`
renders its header line `" " * indent + f"{self.name}:"` followed by
each child's `display(indent + 2)`, joined by `"\n"`. -/
def display : FleetComponent → Nat → String
  | .vehicle n e, i => spaces i ++ n ++ " (" ++ e ++ ")"
  | .group n cs, i => joinNL ((spaces i ++ n ++ ":") :: displayList cs (i + 2))

def displayList : List FleetComponent → Nat → List String
  | [], _ => []
  | c :: cs, i => display c i :: displayList cs i

end

theorem displayList_eq_map (cs : List FleetComponent) (i : Nat) :
    displayList cs i = cs.map (fun c => display c i) := by
  induction cs with
  | nil => simp [displayList]
  | cons c cs ih => simp [displayList, ih]

/-- `FleetComponent.add`: appends on a `FleetGroup`; on a `Vehicle` the
base-class method raises `NotImplementedError`. -/
def FleetComponent.add : FleetComponent → FleetComponent → Except PyError FleetComponent
  | .group n cs, c => .ok (.group n (cs ++ [c]))
  | .vehicle n e, _ =>
    let _ := (n, e)
    .error (.notImplementedError "Cannot add child to a leaf component")

/-- `FleetComponent.remove`: on a `FleetGroup`, `self._children.remove(c)`
drops the first matching child and raises `ValueError` when none matches;
on a `Vehicle` the base-class method raises `NotImplementedError`. -/
def FleetComponent.remove : FleetComponent → FleetComponent → Except PyError FleetComponent
  | .group n cs, c =>
    if c ∈ cs then .ok (.group n (cs.erase c))
    else .error (.valueError "list.remove(x): x not in list")
  | .vehicle n e, _ =>
    let _ := (n, e)
    .error (.notImplementedError "Cannot remove child from a leaf component")

mutual

/-- Number of `Vehicle` leaves in a component. -/
def countLeaves : FleetComponent → Nat
  | .vehicle _ _ => 1
  | .group _ cs => countLeavesList cs

def countLeavesList : List FleetComponent → Nat
  | [] => 0
  | c :: cs => countLeaves c + countLeavesList cs

end

theorem countLeavesList_append (as bs : List FleetComponent) :
    countLeavesList (as ++ bs) = countLeavesList as + countLeavesList bs := by
  induction as with
  | nil => simp [countLeavesList]
  | cons a as ih => simp [countLeavesList, ih]; omega

/-- Split a character list at every newline, the semantics of reading a
rendered string back as lines. -/
def splitCh : List Char → List (List Char)
  | [] => [[]]
  | c :: rest =>
    if c = '\n' then [] :: splitCh rest
    else
      match splitCh rest with
      | [] => [[c]]
      | l :: ls => (c :: l) :: ls

theorem splitCh_ne_nil : ∀ xs, splitCh xs ≠ [] := by
  intro xs
  cases xs with
  | nil => simp [splitCh]
  | cons c rest =>
    by_cases h : c = '\n'
    · simp [splitCh, h]
    · simp only [splitCh, h, if_false]
      cases splitCh rest <;> simp

theorem splitCh_cons_of_ne (c : Char) (rest : List Char) (h : ¬ c = '\n')
    (l : List Char) (ls : List (List Char)) (hrest : splitCh rest = l :: ls) :
    splitCh (c :: rest) = (c :: l) :: ls := by
  simp [splitCh, h, hrest]

theorem splitCh_append_nl : ∀ xs ys, splitCh (xs ++ '\n' :: ys) = splitCh xs ++ splitCh ys := by
  intro xs ys
  induction xs with
  | nil => simp [splitCh]
  | cons c xs ih =>
    by_cases h : c = '\n'
    · subst h; simp [splitCh, ih]
    · obtain ⟨l, ls, hxs⟩ : ∃ l ls, splitCh xs = l :: ls := by
        cases hx : splitCh xs with
        | nil => exact absurd hx (splitCh_ne_nil xs)
        | cons l ls => exact ⟨l, ls, rfl⟩
      have h2 : splitCh (xs ++ '\n' :: ys) = l :: (ls ++ splitCh ys) := by
        rw [ih, hxs]; rfl
      rw [List.cons_append,
        splitCh_cons_of_ne c (xs ++ '\n' :: ys) h l (ls ++ splitCh ys) h2,
        splitCh_cons_of_ne c xs h l ls hxs]
      rfl

theorem splitCh_of_no_nl : ∀ xs : List Char, ¬ '\n' ∈ xs → splitCh xs = [xs] := by
  intro xs
  induction xs with
  | nil => intro _; rfl
  | cons c rest ih =>
    intro h
    have hc : ¬ c = '\n' := by
      intro hc; exact h (by simp [hc])
    have hrest : splitCh rest = [rest] := ih (by intro hm; exact h (List.mem_cons_of_mem c hm))
    rw [splitCh_cons_of_ne c rest hc rest [] hrest]

theorem splitCh_joinNL : ∀ L : List String, L ≠ [] →
    splitCh (joinNL L).data = L.flatMap (fun s => splitCh s.data) := by
  intro L
  induction L with
  | nil => intro h; exact absurd rfl h
  | cons s rest ih =>
    intro _
    cases rest with
    | nil => simp [joinNL]
    | cons t ts =>
      have hdata : (joinNL (s :: t :: ts)).data
          = s.data ++ '\n' :: (joinNL (t :: ts)).data := by
        show (s ++ "\n" ++ joinNL (t :: ts)).data = _
        simp [String.data_append]
      rw [hdata, splitCh_append_nl, ih (by simp)]
      simp

mutual

/-- No field of the component contains a newline character. -/
def noNL : FleetComponent → Bool
  | .vehicle n e => decide (¬ '\n' ∈ n.data) && decide (¬ '\n' ∈ e.data)
  | .group n cs => decide (¬ '\n' ∈ n.data) && noNLList cs

def noNLList : List FleetComponent → Bool
  | [] => true
  | c :: cs => noNL c && noNLList cs

end

mutual

/-- Rendering as the specification words it, line by line: a leaf is the
single line `indent` spaces + `name` + `" ("` + `energy_source` + `")"`;
a group is the line `indent` spaces + `name` + `":"` followed by each
child's lines at `indent + 2`, in child order. -/
def linesSpec : FleetComponent → Nat → List (List Char)
  | .vehicle n e, i => [List.replicate i ' ' ++ n.data ++ [' ', '('] ++ e.data ++ [')']]
  | .group n cs, i => (List.replicate i ' ' ++ n.data ++ [':']) :: linesSpecList cs (i + 2)

def linesSpecList : List FleetComponent → Nat → List (List Char)
  | [], _ => []
  | c :: cs, i => linesSpec c i ++ linesSpecList cs i

end

/-- `str.isspace` for the characters `str.strip()` removes, restricted to
the ASCII whitespace code points (Python additionally strips other
Unicode whitespace, which this development never exercises). -/
def pyIsSpace (c : Char) : Bool :=
  c = ' ' || c = '\t' || c = '\n' || c = '\r' || c = Char.ofNat 11 || c = Char.ofNat 12

/-- `s.strip()`: remove leading and trailing whitespace. -/
def pyStrip (s : String) : String :=
  String.mk (((s.data.dropWhile pyIsSpace).reverse.dropWhile pyIsSpace).reverse)

/-- `str.isdigit` on one character.  Python accepts every code point of
Unicode `Numeric_Type` `Digit` or `Decimal`; the model covers the ASCII
decimal digits and the Latin-1 superscript digits U+00B9/U+00B2/U+00B3
(`Numeric_Type=Digit` but not `Decimal`), the portion exercised here. -/
def pyIsDigitChar (c : Char) : Bool :=
  c.isDigit || c = '¹' || c = '²' || c = '³'

/-- `s.isdigit()`: nonempty and every character a digit. -/
def pyIsDigitStr (s : String) : Bool :=
  !s.data.isEmpty && s.data.all pyIsDigitChar

def digitsToNat (l : List Char) : Nat :=
  l.foldl (fun a c => 10 * a + (c.toNat - '0'.toNat)) 0

/-- `int(s)` on the strings reaching it here (already stripped, every
character passing `isdigit`): succeeds exactly on nonempty all-ASCII-
decimal strings; a superscript digit passes `isdigit` but is not
`Numeric_Type=Decimal`, so `int` raises `ValueError` on it. -/
def pyInt (s : String) : Except PyError Nat :=
  if !s.data.isEmpty && s.data.all Char.isDigit then .ok (digitsToNat s.data)
  else .error (.valueError ("invalid literal for int() with base 10: '" ++ s ++ "'"))

/-- Uppercasing of one character, for the ASCII and Cyrillic ranges the
program uses (Python's `str.capitalize` title-cases via full Unicode
tables). -/
def pyUpperChar (c : Char) : Char :=
  if 'a' ≤ c ∧ c ≤ 'z' then Char.ofNat (c.toNat - 32)
  else if 'а' ≤ c ∧ c ≤ 'я' then Char.ofNat (c.toNat - 32)
  else if c = 'ё' then 'Ё'
  else c

/-- Lowercasing of one character, same ranges as `pyUpperChar`. -/
def pyLowerChar (c : Char) : Char :=
  if 'A' ≤ c ∧ c ≤ 'Z' then Char.ofNat (c.toNat + 32)
  else if 'А' ≤ c ∧ c ≤ 'Я' then Char.ofNat (c.toNat + 32)
  else if c = 'Ё' then 'ё'
  else c

/-- `s.capitalize()`: first character upper-cased, the rest lower-cased. -/
def pyCapitalize (s : String) : String :=
  match s.data with
  | [] => ""
  | c :: rest => String.mk (pyUpperChar c :: rest.map pyLowerChar)

/-- The energy-source menu of `_ask_energy_source`, in menu order. -/
def sources : List String := ["электричество", "бензин", "газ", "гибрид"]

def MSG_NAME_PROMPT : String := "Введите название автобуса: "
def MSG_EMPTY_NAME : String := "Название автобуса не может быть пустым."
def MSG_CHOOSE : String := "Выберите источник энергии:"
def PROMPT_GT : String := "> "
def MSG_NOT_A_NUMBER : String := "Нужно ввести номер варианта."
def MSG_NO_SUCH_SOURCE : String := "Нет такого источника энергии."

def MSG_ADDED (name tag : String) : String :=
  "Автобус '" ++ name ++ "' с источником энергии '" ++ tag ++ "' добавлен в автопарк."

/-- The numbered menu lines `f"{idx}. {source}"`, `idx` counted from 1. -/
def menuLines : List String :=
  sources.enum.map (fun p => toString (p.1 + 1) ++ ". " ++ p.2)

/-- All output produced by `_ask_energy_source` before it reads. -/
def askMenuMsgs : List String := [MSG_CHOOSE] ++ menuLines ++ [PROMPT_GT]

/-- State of `FleetConsoleApp`: the children of the root group
(`self.root_group._children`; the root's own name is the constant
`"Автопарк"`), and the dictionary `self.energy_groups`, modelled as an
insertion-ordered association list whose values are the positions of the
aliased group objects inside the root's child list. -/
structure FleetApp where
  root_children : List FleetComponent
  energy_groups : List (String × Nat)
deriving DecidableEq

/-- The state built by `FleetConsoleApp.__init__`. -/
def appInit : FleetApp := ⟨[], []⟩

/-- Root group's display name. -/
def ROOT_NAME : String := "Автопарк"

/-- `self.root_group.display()` as called by the menu's option 2. -/
def renderApp (st : FleetApp) : String :=
  display (.group ROOT_NAME st.root_children) 0

/-- Dictionary lookup `self.energy_groups[tag]` (first, and by the key
invariant only, binding of the tag). -/
def lookupTag : List (String × Nat) → String → Option Nat
  | [], _ => none
  | p :: rest, tag => if p.1 = tag then some p.2 else lookupTag rest tag

/-- `_get_or_create_energy_group`: look the tag up; if absent, create a
`FleetGroup` named `energy_source.capitalize()`, register it under the
tag and append it to the root's children.  Returns the updated state and
the group's position among the root's children. -/
def get_or_create_energy_group (st : FleetApp) (tag : String) : FleetApp × Nat :=
  match lookupTag st.energy_groups tag with
  | some i => (st, i)
  | none =>
    (⟨st.root_children ++ [.group (pyCapitalize tag) []],
      st.energy_groups ++ [(tag, st.root_children.length)]⟩,
     st.root_children.length)

/-- Append a child to the group at position `i` (the effect of
`group.add(child)` on the aliased group object). -/
def addChildAt : List FleetComponent → Nat → FleetComponent → List FleetComponent
  | [], _, _ => []
  | g :: gs, 0, child =>
    (match g with
     | .group n cs => .group n (cs ++ [child])
     | v => v) :: gs
  | g :: gs, n + 1, child => g :: addChildAt gs n child

/-- The Registry mutation of `_handle_add_vehicle` after validation:
resolve or create the group for the tag, then append
`Vehicle(name=name, energy_source=energy_source)` to it. -/
def add_vehicle (st : FleetApp) (name tag : String) : FleetApp :=
  let r := get_or_create_energy_group st tag
  ⟨addChildAt r.1.root_children r.2 (.vehicle name tag), r.1.energy_groups⟩

/-- Run a sequence of `add_vehicle` calls, in order. -/
def runAdds (st : FleetApp) : List (String × String) → FleetApp
  | [] => st
  | c :: cs => runAdds (add_vehicle st c.1 c.2) cs

/-- The two Registry operations reachable from the menu. -/
inductive Cmd where
  | addVehicle (name tag : String)
  | render

/-- One menu-driven Registry call: `add_vehicle` mutates the tree;
`display` only builds a string and leaves the state unchanged. -/
def stepCmd (st : FleetApp) : Cmd → FleetApp
  | .addVehicle n t => add_vehicle st n t
  | .render => st

def runCmds (st : FleetApp) : List Cmd → FleetApp
  | [] => st
  | c :: cs => runCmds (stepCmd st c) cs

/-- `_ask_energy_source`, given the line read at its `input("> ")`:
strip it, reject (returning `none` plus the printed message) when it is
not all digits or when the number is out of range, otherwise return the
selected source.  `int` can raise on digit-like non-decimal input. -/
def ask_energy_source (raw : String) : Except PyError (Option String × List String) :=
  if pyIsDigitStr (pyStrip raw) = false then .ok (none, [MSG_NOT_A_NUMBER])
  else
    match pyInt (pyStrip raw) with
    | .error e => .error e
    | .ok n =>
      if (n : Int) - 1 < 0 ∨ (sources.length : Int) ≤ (n : Int) - 1 then
        .ok (none, [MSG_NO_SUCH_SOURCE])
      else .ok (some (sources.getD ((n : Int) - 1).toNat ""), [])

/-- `_handle_add_vehicle`, given the state and the pending input lines.
Returns the new state, the input lines left unread, and the prompts and
messages printed, or the exception that escaped. -/
def handle_add_vehicle (st : FleetApp) (inputs : List String) :
    Except PyError (FleetApp × List String × List String) :=
  match inputs with
  | [] => .error .eofError
  | rawName :: rest =>
    let name := pyStrip rawName
    if name = "" then .ok (st, rest, [MSG_NAME_PROMPT, MSG_EMPTY_NAME])
    else
      match rest with
      | [] => .error .eofError
      | rawChoice :: rest2 =>
        match ask_energy_source rawChoice with
        | .error e => .error e
        | .ok (none, msgs) => .ok (st, rest2, [MSG_NAME_PROMPT] ++ askMenuMsgs ++ msgs)
        | .ok (some tag, msgs) =>
          .ok (add_vehicle st name tag, rest2,
               [MSG_NAME_PROMPT] ++ askMenuMsgs ++ msgs ++ [MSG_ADDED name tag])

theorem addChildAt_length : ∀ (l : List FleetComponent) (i : Nat) (c : FleetComponent),
    (addChildAt l i c).length = l.length := by
  intro l
  induction l with
  | nil => intro i c; rfl
  | cons g gs ih =>
    intro i c
    cases i with
    | zero => simp [addChildAt]
    | succ n => simp [addChildAt, ih]

theorem getElem?_addChildAt_ne : ∀ (l : List FleetComponent) (i j : Nat) (c : FleetComponent),
    j ≠ i → (addChildAt l i c)[j]? = l[j]? := by
  intro l
  induction l with
  | nil => intro i j c _; rfl
  | cons g gs ih =>
    intro i j c hji
    cases i with
    | zero =>
      cases j with
      | zero => exact absurd rfl hji
      | succ m => simp [addChildAt]
    | succ n =>
      cases j with
      | zero => simp [addChildAt]
      | succ m =>
        simp only [addChildAt, List.getElem?_cons_succ]
        exact ih n m c (by omega)

theorem getElem?_addChildAt_self : ∀ (l : List FleetComponent) (i : Nat)
    (c : FleetComponent) (n : String) (cs : List FleetComponent),
    l[i]? = some (.group n cs) → (addChildAt l i c)[i]? = some (.group n (cs ++ [c])) := by
  intro l
  induction l with
  | nil => intro i c n cs h; simp at h
  | cons g gs ih =>
    intro i c n cs h
    cases i with
    | zero =>
      simp only [List.getElem?_cons_zero, Option.some.injEq] at h
      subst h
      simp [addChildAt]
    | succ m =>
      simp only [List.getElem?_cons_succ] at h
      simpa [addChildAt] using ih m c n cs h

theorem countLeavesList_addChildAt : ∀ (l : List FleetComponent) (i : Nat)
    (v : FleetComponent) (n : String) (cs : List FleetComponent),
    l[i]? = some (.group n cs) →
    countLeavesList (addChildAt l i v) = countLeavesList l + countLeaves v := by
  intro l
  induction l with
  | nil => intro i v n cs h; simp at h
  | cons g gs ih =>
    intro i v n cs h
    cases i with
    | zero =>
      simp only [List.getElem?_cons_zero, Option.some.injEq] at h
      subst h
      simp [addChildAt, countLeavesList, countLeaves, countLeavesList_append]
      omega
    | succ m =>
      simp only [List.getElem?_cons_succ] at h
      simp only [addChildAt, countLeavesList, ih m v n cs h]
      omega

theorem lookupTag_append : ∀ (eg₁ eg₂ : List (String × Nat)) (t : String),
    lookupTag (eg₁ ++ eg₂) t
      = match lookupTag eg₁ t with
        | some i => some i
        | none => lookupTag eg₂ t := by
  intro eg₁ eg₂ t
  induction eg₁ with
  | nil => simp [lookupTag]
  | cons p rest ih =>
    by_cases h : p.1 = t
    · simp [lookupTag, h]
    · simp [lookupTag, h, ih]

theorem lookupTag_eq_none_iff : ∀ (eg : List (String × Nat)) (t : String),
    lookupTag eg t = none ↔ ∀ p ∈ eg, p.1 ≠ t := by
  intro eg t
  induction eg with
  | nil => simp [lookupTag]
  | cons p rest ih =>
    by_cases h : p.1 = t
    · simp [lookupTag, h]
    · simp [lookupTag, h, ih]

theorem lookupTag_mem : ∀ (eg : List (String × Nat)) (t : String) (i : Nat),
    lookupTag eg t = some i → (t, i) ∈ eg := by
  intro eg t i
  induction eg with
  | nil => intro h; simp [lookupTag] at h
  | cons p rest ih =>
    intro h
    by_cases hp : p.1 = t
    · simp only [lookupTag, hp, if_true, Option.some.injEq] at h
      have hp2 : p = (t, i) := by
        obtain ⟨p1, p2⟩ := p
        simp only at hp h
        simp [hp, h]
      rw [hp2]
      exact List.mem_cons_self _ _
    · simp only [lookupTag, hp, if_false] at h
      exact List.mem_cons_of_mem p (ih h)

theorem lookupTag_of_mem_nodup : ∀ (eg : List (String × Nat)) (t : String) (i : Nat),
    (eg.map Prod.fst).Nodup → (t, i) ∈ eg → lookupTag eg t = some i := by
  intro eg t i
  induction eg with
  | nil => intro _ h; simp at h
  | cons p rest ih =>
    intro hnd hm
    rcases List.mem_cons.mp hm with heq | hrest
    · subst heq; simp [lookupTag]
    · have hp : p.1 ≠ t := by
        intro hpt
        have hmt : t ∈ rest.map Prod.fst := List.mem_map.mpr ⟨(t, i), hrest, rfl⟩
        simp only [List.map_cons, List.nodup_cons] at hnd
        exact hnd.1 (by rw [hpt]; exact hmt)
      have hnd' : (rest.map Prod.fst).Nodup := by
        simp only [List.map_cons, List.nodup_cons] at hnd
        exact hnd.2
      simp [lookupTag, hp, ih hnd' hrest]

/-- Children of the component at position `i` (empty when out of range or
a leaf). -/
def childrenAt (l : List FleetComponent) (i : Nat) : List FleetComponent :=
  match l[i]? with
  | some (.group _ cs) => cs
  | _ => []

/-- The vehicles currently stored under the group registered for `t`. -/
def vehiclesOfTag (st : FleetApp) (t : String) : List FleetComponent :=
  match lookupTag st.energy_groups t with
  | some i => childrenAt st.root_children i
  | none => []

/-- The state invariant of `FleetConsoleApp`: the dictionary's keys are
unique, the registered positions are distinct, and every entry points at
a group child of the root whose display name is the capitalized tag. -/
def InvApp (st : FleetApp) : Prop :=
  (st.energy_groups.map Prod.fst).Nodup
  ∧ (st.energy_groups.map Prod.snd).Nodup
  ∧ ∀ p ∈ st.energy_groups,
      ∃ cs, st.root_children[p.2]? = some (.group (pyCapitalize p.1) cs)

theorem InvApp_init : InvApp appInit := by
  refine ⟨by simp [appInit], by simp [appInit], ?_⟩
  intro p hp
  simp [appInit] at hp

theorem get_or_create_spec (st : FleetApp) (tag : String) (h : InvApp st) :
    InvApp (get_or_create_energy_group st tag).1
    ∧ lookupTag (get_or_create_energy_group st tag).1.energy_groups tag
        = some (get_or_create_energy_group st tag).2
    ∧ (∃ cs, (get_or_create_energy_group st tag).1.root_children[(get_or_create_energy_group st tag).2]?
        = some (.group (pyCapitalize tag) cs))
    ∧ (∃ rest, (get_or_create_energy_group st tag).1.energy_groups
        = st.energy_groups ++ rest)
    ∧ (∀ j, j < st.root_children.length →
        (get_or_create_energy_group st tag).1.root_children[j]? = st.root_children[j]?)
    ∧ countLeavesList (get_or_create_energy_group st tag).1.root_children
        = countLeavesList st.root_children
    ∧ childrenAt (get_or_create_energy_group st tag).1.root_children
        (get_or_create_energy_group st tag).2 = vehiclesOfTag st tag
    ∧ (∀ t', t' ≠ tag →
        lookupTag (get_or_create_energy_group st tag).1.energy_groups t'
          = lookupTag st.energy_groups t') := by
  obtain ⟨hnd1, hnd2, hshape⟩ := h
  cases hl : lookupTag st.energy_groups tag with
  | some i =>
    have hg : get_or_create_energy_group st tag = (st, i) := by
      simp [get_or_create_energy_group, hl]
    rw [hg]
    refine ⟨⟨hnd1, hnd2, hshape⟩, hl, ?_, ⟨[], by simp⟩, fun j _ => rfl, rfl,
      by simp [vehiclesOfTag, hl], fun t' _ => rfl⟩
    have hm := lookupTag_mem st.energy_groups tag i hl
    exact hshape (tag, i) hm
  | none =>
    have hg : get_or_create_energy_group st tag
        = (⟨st.root_children ++ [.group (pyCapitalize tag) []],
            st.energy_groups ++ [(tag, st.root_children.length)]⟩,
           st.root_children.length) := by
      simp [get_or_create_energy_group, hl]
    rw [hg]
    have hkeys : ∀ p ∈ st.energy_groups, p.1 ≠ tag :=
      (lookupTag_eq_none_iff st.energy_groups tag).mp hl
    have hidx : ∀ p ∈ st.energy_groups, p.2 < st.root_children.length := by
      intro p hp
      obtain ⟨cs, hcs⟩ := hshape p hp
      exact (List.getElem?_eq_some.mp hcs).1
    refine ⟨⟨?_, ?_, ?_⟩, ?_, ?_, ?_, ?_, ?_, ?_, ?_⟩
    · simp only [List.map_append]
      rw [List.nodup_append]
      refine ⟨hnd1, by simp, ?_⟩
      intro a ha hb
      simp only [List.map_cons, List.map_nil, List.mem_singleton] at hb
      obtain ⟨p, hp, hpa⟩ := List.mem_map.mp ha
      exact hkeys p hp (by rw [hpa, hb])
    · simp only [List.map_append]
      rw [List.nodup_append]
      refine ⟨hnd2, by simp, ?_⟩
      intro a ha hb
      simp only [List.map_cons, List.map_nil, List.mem_singleton] at hb
      obtain ⟨p, hp, hpa⟩ := List.mem_map.mp ha
      have := hidx p hp
      omega
    · intro p hp
      rcases List.mem_append.mp hp with hold | hnew
      · obtain ⟨cs, hcs⟩ := hshape p hold
        refine ⟨cs, ?_⟩
        simp only [List.getElem?_append, hidx p hold, if_true]
        exact hcs
      · simp only [List.mem_singleton] at hnew
        subst hnew
        exact ⟨[], List.getElem?_concat_length _ _⟩
    · rw [lookupTag_append, hl]
      simp [lookupTag]
    · exact ⟨[], List.getElem?_concat_length _ _⟩
    · exact ⟨[(tag, st.root_children.length)], rfl⟩
    · intro j hj
      simp [List.getElem?_append, hj]
    · simp [countLeavesList_append, countLeavesList, countLeaves]
    · simp [childrenAt, vehiclesOfTag, hl, List.getElem?_concat_length]
    · intro t' ht'
      rw [lookupTag_append]
      cases hlt : lookupTag st.energy_groups t' with
      | some i => simp
      | none =>
        simp only [lookupTag]
        rw [if_neg]
        intro hh
        exact ht' hh.symm

theorem childrenAt_of_get (l : List FleetComponent) (i : Nat) (n : String)
    (cs : List FleetComponent) (h : l[i]? = some (.group n cs)) :
    childrenAt l i = cs := by
  simp [childrenAt, h]

theorem childrenAt_congr (l l' : List FleetComponent) (i : Nat)
    (h : l[i]? = l'[i]?) : childrenAt l i = childrenAt l' i := by
  simp [childrenAt, h]

theorem add_vehicle_spec (st : FleetApp) (nm tg : String) (h : InvApp st) :
    InvApp (add_vehicle st nm tg)
    ∧ (∃ rest, (add_vehicle st nm tg).energy_groups = st.energy_groups ++ rest)
    ∧ countLeavesList (add_vehicle st nm tg).root_children
        = countLeavesList st.root_children + 1
    ∧ vehiclesOfTag (add_vehicle st nm tg) tg
        = vehiclesOfTag st tg ++ [.vehicle nm tg]
    ∧ (∀ t', t' ≠ tg → vehiclesOfTag (add_vehicle st nm tg) t' = vehiclesOfTag st t')
    ∧ (∀ p ∈ st.energy_groups, ∃ cs cs',
        st.root_children[p.2]? = some (.group (pyCapitalize p.1) cs)
        ∧ (add_vehicle st nm tg).root_children[p.2]?
            = some (.group (pyCapitalize p.1) (cs ++ cs'))) := by
  obtain ⟨hnd1, hnd2, hshape0⟩ := h
  obtain ⟨⟨hnd1', hnd2', hshape'⟩, hlook, ⟨cs0, hcs0⟩, ⟨rest, hrest⟩, hold, hcount,
      hchild, hlookother⟩ := get_or_create_spec st tg ⟨hnd1, hnd2, hshape0⟩
  set r := get_or_create_energy_group st tg with hr
  have havE : (add_vehicle st nm tg).energy_groups = r.1.energy_groups := rfl
  have havR : (add_vehicle st nm tg).root_children
      = addChildAt r.1.root_children r.2 (.vehicle nm tg) := rfl
  have hmem_tg : (tg, r.2) ∈ r.1.energy_groups :=
    lookupTag_mem r.1.energy_groups tg r.2 hlook
  have hself : (addChildAt r.1.root_children r.2 (.vehicle nm tg))[r.2]?
      = some (.group (pyCapitalize tg) (cs0 ++ [.vehicle nm tg])) :=
    getElem?_addChildAt_self r.1.root_children r.2 (.vehicle nm tg) _ _ hcs0
  have hchild0 : childrenAt r.1.root_children r.2 = cs0 :=
    childrenAt_of_get r.1.root_children r.2 _ cs0 hcs0
  refine ⟨⟨?_, ?_, ?_⟩, ?_, ?_, ?_, ?_, ?_⟩
  · rw [havE]; exact hnd1'
  · rw [havE]; exact hnd2'
  · intro p hp
    rw [havE] at hp
    rw [havR]
    by_cases hpi : p.2 = r.2
    · have hpeq : p = (tg, r.2) :=
        List.inj_on_of_nodup_map hnd2' hp hmem_tg hpi
      rw [hpeq]
      exact ⟨cs0 ++ [.vehicle nm tg], hself⟩
    · obtain ⟨cs, hcs⟩ := hshape' p hp
      refine ⟨cs, ?_⟩
      rw [getElem?_addChildAt_ne r.1.root_children r.2 p.2 (.vehicle nm tg) hpi]
      exact hcs
  · exact ⟨rest, by rw [havE]; exact hrest⟩
  · rw [havR, countLeavesList_addChildAt r.1.root_children r.2 (.vehicle nm tg) _ _ hcs0,
      hcount]
    rfl
  · show (match lookupTag (add_vehicle st nm tg).energy_groups tg with
      | some i => childrenAt (add_vehicle st nm tg).root_children i
      | none => []) = vehiclesOfTag st tg ++ [FleetComponent.vehicle nm tg]
    rw [havE, hlook]
    simp only
    rw [havR, childrenAt_of_get _ r.2 _ _ hself, ← hchild, hchild0]
  · intro t' ht'
    have hlt' : lookupTag r.1.energy_groups t' = lookupTag st.energy_groups t' :=
      hlookother t' ht'
    cases hlt : lookupTag st.energy_groups t' with
    | none =>
      show (match lookupTag (add_vehicle st nm tg).energy_groups t' with
        | some i => childrenAt (add_vehicle st nm tg).root_children i
        | none => []) = vehiclesOfTag st t'
      rw [havE, hlt', hlt]
      simp [vehiclesOfTag, hlt]
    | some i' =>
      have hlr : lookupTag r.1.energy_groups t' = some i' := by rw [hlt']; exact hlt
      have hm' : (t', i') ∈ r.1.energy_groups :=
        lookupTag_mem r.1.energy_groups t' i' hlr
      have hne : i' ≠ r.2 := by
        intro he
        have heq : (t', i') = (tg, r.2) :=
          List.inj_on_of_nodup_map hnd2' hm' hmem_tg he
        exact ht' (by injection heq with h1 _)
      have hm0 : (t', i') ∈ st.energy_groups :=
        lookupTag_mem st.energy_groups t' i' hlt
      obtain ⟨cs', hcs'⟩ := hshape0 (t', i') hm0
      have hlt2 : i' < st.root_children.length := (List.getElem?_eq_some.mp hcs').1
      show (match lookupTag (add_vehicle st nm tg).energy_groups t' with
        | some i => childrenAt (add_vehicle st nm tg).root_children i
        | none => []) = vehiclesOfTag st t'
      rw [havE, hlr]
      simp only
      rw [havR]
      have hstep : (addChildAt r.1.root_children r.2 (.vehicle nm tg))[i']?
          = st.root_children[i']? := by
        rw [getElem?_addChildAt_ne r.1.root_children r.2 i' (.vehicle nm tg) hne]
        exact hold i' hlt2
      rw [childrenAt_congr _ st.root_children i' hstep]
      simp [vehiclesOfTag, hlt]
  · intro p hp
    obtain ⟨cs, hcs⟩ := hshape0 p hp
    have hplt : p.2 < st.root_children.length := (List.getElem?_eq_some.mp hcs).1
    have hold' : r.1.root_children[p.2]? = st.root_children[p.2]? := hold p.2 hplt
    by_cases hpi : p.2 = r.2
    · have hgr : some (FleetComponent.group (pyCapitalize tg) cs0)
          = some (FleetComponent.group (pyCapitalize p.1) cs) := by
        rw [← hcs0, ← hcs, ← hold', hpi]
      have hname : pyCapitalize tg = pyCapitalize p.1 := by
        injection hgr with hg2
        injection hg2 with hn _
      have hcs0eq : cs0 = cs := by
        injection hgr with hg2
        injection hg2 with _ hc
      refine ⟨cs, [.vehicle nm tg], hcs, ?_⟩
      rw [havR, hpi, hself, ← hname, hcs0eq]
    · refine ⟨cs, [], hcs, ?_⟩
      rw [havR, getElem?_addChildAt_ne r.1.root_children r.2 p.2 (.vehicle nm tg) hpi,
        hold']
      simpa using hcs

theorem runAdds_spec (calls : List (String × String)) :
    ∀ st, InvApp st →
      InvApp (runAdds st calls)
      ∧ countLeavesList (runAdds st calls).root_children
          = countLeavesList st.root_children + calls.length
      ∧ (∀ t, vehiclesOfTag (runAdds st calls) t
          = vehiclesOfTag st t
            ++ (calls.filter (fun c => c.2 == t)).map
                (fun c => FleetComponent.vehicle c.1 c.2))
      ∧ (∃ rest, (runAdds st calls).energy_groups = st.energy_groups ++ rest)
      ∧ (∀ p ∈ st.energy_groups, ∃ cs cs',
          st.root_children[p.2]? = some (.group (pyCapitalize p.1) cs)
          ∧ (runAdds st calls).root_children[p.2]?
              = some (.group (pyCapitalize p.1) (cs ++ cs'))) := by
  induction calls with
  | nil =>
    intro st h
    refine ⟨h, by simp [runAdds], fun t => by simp [runAdds], ⟨[], by simp [runAdds]⟩, ?_⟩
    intro p hp
    obtain ⟨cs, hcs⟩ := h.2.2 p hp
    exact ⟨cs, [], hcs, by simpa [runAdds] using hcs⟩
  | cons c cl ih =>
    intro st h
    obtain ⟨inv1, ⟨r1, hr1⟩, hc1, hsame, hother, hpers1⟩ :=
      add_vehicle_spec st c.1 c.2 h
    obtain ⟨inv2, hc2, htags2, ⟨r2, hr2⟩, hpers2⟩ := ih (add_vehicle st c.1 c.2) inv1
    have hrun : runAdds st (c :: cl) = runAdds (add_vehicle st c.1 c.2) cl := rfl
    refine ⟨by rw [hrun]; exact inv2, ?_, ?_, ?_, ?_⟩
    · rw [hrun, hc2, hc1]
      simp [Nat.add_assoc, Nat.add_comm 1 cl.length]
    · intro t
      rw [hrun, htags2 t]
      by_cases ht : c.2 = t
      · rw [← ht, hsame]
        simp [List.filter_cons, ht]
      · rw [hother t (fun he => ht he.symm)]
        have : (c.2 == t) = false := by simp [ht]
        simp [List.filter_cons, this]
    · refine ⟨r1 ++ r2, ?_⟩
      rw [hrun, hr2, hr1, List.append_assoc]
    · intro p hp
      obtain ⟨cs, cs', hcs, hcs'⟩ := hpers1 p hp
      have hp' : p ∈ (add_vehicle st c.1 c.2).energy_groups := by
        rw [hr1]; exact List.mem_append_left r1 hp
      obtain ⟨ds, ds', hds, hds'⟩ := hpers2 p hp'
      have hde : ds = cs ++ cs' := by
        rw [hcs'] at hds
        injection hds with h1
        injection h1 with _ h2
        exact h2.symm
      refine ⟨cs, cs' ++ ds', hcs, ?_⟩
      rw [hrun, hds', hde, List.append_assoc]

/-- The `add_vehicle` calls contained in a command sequence, in order. -/
def addsOf : List Cmd → List (String × String)
  | [] => []
  | .addVehicle n t :: cs => (n, t) :: addsOf cs
  | .render :: cs => addsOf cs

theorem runCmds_eq_runAdds : ∀ (cmds : List Cmd) (st : FleetApp),
    runCmds st cmds = runAdds st (addsOf cmds) := by
  intro cmds
  induction cmds with
  | nil => intro st; rfl
  | cons c cs ih =>
    intro st
    cases c with
    | addVehicle n t => exact ih (add_vehicle st n t)
    | render => exact ih st

theorem runCmds_append : ∀ (a b : List Cmd) (st : FleetApp),
    runCmds st (a ++ b) = runCmds (runCmds st a) b := by
  intro a
  induction a with
  | nil => intro b st; rfl
  | cons c cs ih => intro b st; exact ih b (stepCmd st c)

theorem InvApp_runCmds (cmds : List Cmd) : InvApp (runCmds appInit cmds) := by
  rw [runCmds_eq_runAdds]
  exact (runAdds_spec (addsOf cmds) appInit InvApp_init).1

/-- C1: for every sequence of `add_vehicle(name, tag)` calls with
non-empty names and tags drawn from the recognized set, the number of
`Vehicle` leaves under the root equals the number of calls, and for each
registered tag the children of its group are exactly the vehicles of the
calls carrying that tag, in call order — so two identical calls put two
distinct leaves in the list, with no deduplication. -/
theorem runAdds_leaf_count_and_grouping (calls : List (String × String))
    (_hvalid : ∀ c ∈ calls, c.1 ≠ "" ∧ c.2 ∈ sources) :
    countLeaves (.group ROOT_NAME (runAdds appInit calls).root_children) = calls.length
    ∧ ∀ p ∈ (runAdds appInit calls).energy_groups,
        childrenAt (runAdds appInit calls).root_children p.2
          = (calls.filter (fun c => c.2 == p.1)).map
              (fun c => FleetComponent.vehicle c.1 c.2) := by
  obtain ⟨inv, hcount, htags, _, _⟩ := runAdds_spec calls appInit InvApp_init
  constructor
  · show countLeavesList (runAdds appInit calls).root_children = calls.length
    rw [hcount]
    simp [appInit, countLeavesList]
  · intro p hp
    have hp' : (p.1, p.2) ∈ (runAdds appInit calls).energy_groups := by
      rw [Prod.mk.eta]; exact hp
    have hl : lookupTag (runAdds appInit calls).energy_groups p.1 = some p.2 :=
      lookupTag_of_mem_nodup _ p.1 p.2 inv.1 hp'
    have hv : vehiclesOfTag (runAdds appInit calls) p.1
        = childrenAt (runAdds appInit calls).root_children p.2 := by
      simp [vehiclesOfTag, hl]
    rw [← hv, htags p.1]
    simp [vehiclesOfTag, appInit, lookupTag]

/-- C3: in every state reachable by `add_vehicle` and `render` calls,
the tags registered in `energy_groups` are pairwise distinct, each entry
points at a group child of the root named by the capitalized tag, and
under any further calls the registry mapping only grows (entries are
never removed or rebound) while the registered group keeps its name and
position, its child list only being extended. -/
theorem energy_groups_invariant_and_persistence (cmds : List Cmd) :
    ((runCmds appInit cmds).energy_groups.map Prod.fst).Nodup
    ∧ (∀ p ∈ (runCmds appInit cmds).energy_groups,
        ∃ cs, (runCmds appInit cmds).root_children[p.2]?
          = some (.group (pyCapitalize p.1) cs))
    ∧ ∀ more : List Cmd,
        (∃ rest, (runCmds appInit (cmds ++ more)).energy_groups
            = (runCmds appInit cmds).energy_groups ++ rest)
        ∧ (∀ p ∈ (runCmds appInit cmds).energy_groups, ∃ cs cs',
            (runCmds appInit cmds).root_children[p.2]?
              = some (.group (pyCapitalize p.1) cs)
            ∧ (runCmds appInit (cmds ++ more)).root_children[p.2]?
              = some (.group (pyCapitalize p.1) (cs ++ cs'))) := by
  have hinv := InvApp_runCmds cmds
  refine ⟨hinv.1, hinv.2.2, ?_⟩
  intro more
  have hmore : runCmds appInit (cmds ++ more)
      = runAdds (runCmds appInit cmds) (addsOf more) := by
    rw [runCmds_append, runCmds_eq_runAdds]
  obtain ⟨_, _, _, hrest, hpers⟩ :=
    runAdds_spec (addsOf more) (runCmds appInit cmds) hinv
  exact ⟨by rw [hmore]; exact hrest, by rw [hmore]; exact hpers⟩

theorem noNLList_iff (cs : List FleetComponent) :
    noNLList cs = true ↔ ∀ x ∈ cs, noNL x = true := by
  induction cs with
  | nil => simp [noNLList]
  | cons c cs ih => simp [noNLList, Bool.and_eq_true, ih]

theorem linesSpecList_eq_flatMap (cs : List FleetComponent) (i : Nat) :
    linesSpecList cs i = cs.flatMap (fun c => linesSpec c i) := by
  induction cs with
  | nil => simp [linesSpecList]
  | cons c cs ih => simp [linesSpecList, ih]

theorem flatMap_congr_mem {α β : Type} (l : List α) (f g : α → List β)
    (h : ∀ x ∈ l, f x = g x) : l.flatMap f = l.flatMap g := by
  induction l with
  | nil => rfl
  | cons x xs ih =>
    simp only [List.flatMap_cons]
    rw [h x (by simp), ih (fun y hy => h y (by simp [hy]))]

theorem display_vehicle_data (n e : String) (i : Nat) :
    (display (.vehicle n e) i).data
      = List.replicate i ' ' ++ n.data ++ [' ', '('] ++ e.data ++ [')'] := rfl

theorem header_data (n : String) (i : Nat) :
    (spaces i ++ n ++ ":").data = List.replicate i ' ' ++ n.data ++ [':'] := rfl

theorem no_nl_replicate (i : Nat) : ¬ '\n' ∈ List.replicate i ' ' := by
  intro h
  have := List.eq_of_mem_replicate h
  simp at this

theorem splitCh_display_aux : ∀ N : Nat, ∀ c : FleetComponent, sizeOf c ≤ N →
    noNL c = true → ∀ i, splitCh (display c i).data = linesSpec c i := by
  intro N
  induction N with
  | zero =>
    intro c hc
    exfalso
    cases c <;> simp at hc
  | succ N ih =>
    intro c hc hnl i
    cases c with
    | vehicle n e =>
      simp only [noNL, Bool.and_eq_true, decide_eq_true_eq] at hnl
      have hno : ¬ '\n' ∈ (display (.vehicle n e) i).data := by
        rw [display_vehicle_data]
        intro hm
        simp only [List.mem_append, List.mem_cons, List.mem_singleton] at hm
        rcases hm with ((((h1 | h2) | h3) | h4) | h5)
        · exact no_nl_replicate i h1
        · exact hnl.1 h2
        · simp at h3
        · exact hnl.2 h4
        · simp at h5
      rw [splitCh_of_no_nl _ hno, display_vehicle_data]
      rfl
    | group n cs =>
      simp only [noNL, Bool.and_eq_true, decide_eq_true_eq] at hnl
      have hL : splitCh (display (.group n cs) i).data
          = splitCh (spaces i ++ n ++ ":").data
            ++ (displayList cs (i + 2)).flatMap (fun s => splitCh s.data) := by
        show splitCh (joinNL ((spaces i ++ n ++ ":") :: displayList cs (i + 2))).data = _
        rw [splitCh_joinNL _ (by simp)]
        simp
      have hhdr : splitCh (spaces i ++ n ++ ":").data
          = [List.replicate i ' ' ++ n.data ++ [':']] := by
        rw [header_data]
        apply splitCh_of_no_nl
        intro hm
        simp only [List.mem_append, List.mem_singleton] at hm
        rcases hm with (h1 | h2) | h3
        · exact no_nl_replicate i h1
        · exact hnl.1 h2
        · simp at h3
      have hch : (displayList cs (i + 2)).flatMap (fun s => splitCh s.data)
          = linesSpecList cs (i + 2) := by
        rw [displayList_eq_map, List.flatMap_map, linesSpecList_eq_flatMap]
        apply flatMap_congr_mem
        intro x hx
        have hsz : sizeOf x ≤ N := by
          have h1 : sizeOf x < sizeOf cs := List.sizeOf_lt_of_mem hx
          have h2 : sizeOf (FleetComponent.group n cs) = 1 + sizeOf n + sizeOf cs := by
            simp
          omega
        exact ih x hsz ((noNLList_iff cs).mp hnl.2 x hx) (i + 2)
      rw [hL, hhdr, hch]
      rfl

/-- C2: the rendering of the source agrees line-for-line with the
specification's wording: a group renders `indent` spaces + `name` + `":"`
as its first line followed by each child's `render(indent + 2)` on its own
lines in child order, and a leaf renders as the single line `indent`
spaces + `"{name} ({energy_source})"` (stated for components whose fields
contain no newline, as a newline inside a name would itself break any
line-by-line reading). -/
theorem display_matches_linesSpec (c : FleetComponent) (i : Nat)
    (hnl : noNL c = true) :
    splitCh (display c i).data = linesSpec c i
    ∧ ∀ nm es j, display (.vehicle nm es) j = spaces j ++ nm ++ " (" ++ es ++ ")" :=
  ⟨splitCh_display_aux (sizeOf c) c le_rfl hnl i, fun _ _ _ => rfl⟩

theorem display_matches_linesSpec_witness :
    (noNL (.group "Автопарк" [.vehicle "Bus-1" "электричество",
        .group "Газ" [.vehicle "Bus-2" "газ"]]) = true)
    ∧ (splitCh (display (.group "Автопарк" [.vehicle "Bus-1" "электричество",
          .group "Газ" [.vehicle "Bus-2" "газ"]]) 0).data
        = linesSpec (.group "Автопарк" [.vehicle "Bus-1" "электричество",
            .group "Газ" [.vehicle "Bus-2" "газ"]]) 0
       ∧ ∀ nm es j, display (.vehicle nm es) j = spaces j ++ nm ++ " (" ++ es ++ ")") :=
  ⟨by decide, display_matches_linesSpec _ 0 (by decide)⟩

theorem joinNL_getLast : ∀ L : List String, L ≠ [] →
    (∀ s ∈ L, s.data.getLast? = some ')' ∨ s.data.getLast? = some ':') →
    ((joinNL L).data.getLast? = some ')' ∨ (joinNL L).data.getLast? = some ':') := by
  intro L
  induction L with
  | nil => intro h; exact absurd rfl h
  | cons s rest ih =>
    intro _ hall
    cases rest with
    | nil => simpa [joinNL] using hall s (by simp)
    | cons t ts =>
      have hj := ih (by simp) (fun x hx => hall x (List.mem_cons_of_mem s hx))
      have hne : (joinNL (t :: ts)).data ≠ [] := by
        rcases hj with h | h <;> (intro he; rw [he] at h; simp at h)
      have hdata : (joinNL (s :: t :: ts)).data
          = (s.data ++ ['\n']) ++ (joinNL (t :: ts)).data := by
        show (s ++ "\n" ++ joinNL (t :: ts)).data = _
        simp [String.data_append]
      rw [hdata, List.getLast?_append_of_ne_nil _ hne]
      exact hj

theorem display_last_aux : ∀ N : Nat, ∀ c : FleetComponent, sizeOf c ≤ N → ∀ i,
    (display c i).data.getLast? = some ')'
    ∨ (display c i).data.getLast? = some ':' := by
  intro N
  induction N with
  | zero =>
    intro c hc
    exfalso
    cases c <;> simp at hc
  | succ N ih =>
    intro c hc i
    cases c with
    | vehicle n e =>
      left
      rw [display_vehicle_data, List.getLast?_concat]
    | group n cs =>
      have hd : display (.group n cs) i
          = joinNL ((spaces i ++ n ++ ":") :: displayList cs (i + 2)) := rfl
      rw [hd]
      apply joinNL_getLast _ (by simp)
      intro s hs
      rcases List.mem_cons.mp hs with hs | hs
      · right
        rw [hs, header_data, List.getLast?_concat]
      · rw [displayList_eq_map] at hs
        obtain ⟨x, hx, hxe⟩ := List.mem_map.mp hs
        have hsz : sizeOf x ≤ N := by
          have h1 : sizeOf x < sizeOf cs := List.sizeOf_lt_of_mem hx
          have h2 : sizeOf (FleetComponent.group n cs) = 1 + sizeOf n + sizeOf cs := by
            simp
          omega
        rw [← hxe]
        exact ih x hsz (i + 2)

/-- C10: a group's rendering never ends in a newline — its final
character is always `')'` (a leaf line) or `':'` (a header line) — and a
group with no children (such as the root before any vehicle is added)
renders as exactly the single line of `indent` spaces + `name` + `":"`. -/
theorem group_display_no_trailing_newline (n : String) (cs : List FleetComponent)
    (i : Nat) :
    (display (.group n cs) i).data.getLast? ≠ some '\n'
    ∧ display (.group n []) i = spaces i ++ n ++ ":" := by
  constructor
  · rcases display_last_aux (sizeOf (FleetComponent.group n cs)) _ le_rfl i with h | h <;>
      simp [h]
  · rfl

/-- C6: invoking `add` or `remove` on a `Vehicle` leaf always produces
the base class's `NotImplementedError`, handed to the caller as an error
value — never a successful (no-op) result. -/
theorem leaf_add_remove_raise (n e : String) (c : FleetComponent) :
    FleetComponent.add (.vehicle n e) c
      = .error (.notImplementedError "Cannot add child to a leaf component")
    ∧ FleetComponent.remove (.vehicle n e) c
      = .error (.notImplementedError "Cannot remove child from a leaf component")
    ∧ (∀ r, FleetComponent.add (.vehicle n e) c ≠ .ok r)
    ∧ (∀ r, FleetComponent.remove (.vehicle n e) c ≠ .ok r) :=
  ⟨rfl, rfl, fun r h => by simp [FleetComponent.add] at h,
    fun r h => by simp [FleetComponent.remove] at h⟩

theorem linesSpecList_length_of_vehicles (cs : List FleetComponent)
    (h : ∀ x ∈ cs, ∃ vn ve, x = FleetComponent.vehicle vn ve) (j : Nat) :
    (linesSpecList cs j).length = cs.length := by
  induction cs with
  | nil => simp [linesSpecList]
  | cons x xs ih =>
    obtain ⟨vn, ve, hx⟩ := h x (by simp)
    rw [hx]
    simp only [linesSpecList, linesSpec, List.length_append, List.length_cons,
      List.length_nil, List.length_singleton]
    rw [ih (fun y hy => h y (by simp [hy]))]
    omega

/-- C7: `FleetGroup.remove` fails with the `ValueError` of `list.remove`
exactly when no matching child is present; on a present child it removes
precisely the first matching occurrence (so a duplicated child's count
drops by one), and a subsequent `display` has one line fewer (stated for
a group of newline-free vehicle children, where each child is one line). -/
theorem group_remove_spec (n : String) (cs : List FleetComponent)
    (c : FleetComponent) (i : Nat) :
    ((∃ msg, FleetComponent.remove (.group n cs) c = .error (.valueError msg)) ↔ c ∉ cs)
    ∧ (c ∈ cs →
        FleetComponent.remove (.group n cs) c = .ok (.group n (cs.erase c))
        ∧ (∃ pre suf, c ∉ pre ∧ cs = pre ++ c :: suf ∧ cs.erase c = pre ++ suf)
        ∧ (cs.erase c).count c + 1 = cs.count c)
    ∧ (noNL (.group n cs) = true →
        (∀ x ∈ cs, ∃ vn ve, x = FleetComponent.vehicle vn ve) →
        (splitCh (display (.group n cs) i).data).length = 1 + cs.length
        ∧ (c ∈ cs →
            (splitCh (display (.group n (cs.erase c)) i).data).length = cs.length)) := by
  refine ⟨?_, ?_, ?_⟩
  · by_cases hm : c ∈ cs
    · simp [FleetComponent.remove, hm]
    · simp [FleetComponent.remove, hm]
  · intro hm
    refine ⟨by simp [FleetComponent.remove, hm], List.exists_erase_eq hm, ?_⟩
    have h1 : (cs.erase c).count c = cs.count c - 1 := List.count_erase_self c cs
    have h2 : 0 < cs.count c := List.count_pos_iff.mpr hm
    omega
  · intro hnl hveh
    simp only [noNL, Bool.and_eq_true, decide_eq_true_eq] at hnl
    constructor
    · rw [splitCh_display_aux (sizeOf (FleetComponent.group n cs))
          (.group n cs) le_rfl (by simp [noNL, hnl.1, hnl.2]) i]
      show (linesSpecList cs (i + 2)).length + 1 = 1 + cs.length
      rw [linesSpecList_length_of_vehicles cs hveh (i + 2)]
      omega
    · intro hm
      have hnl' : noNL (.group n (cs.erase c)) = true := by
        simp only [noNL, Bool.and_eq_true, decide_eq_true_eq]
        refine ⟨hnl.1, (noNLList_iff (cs.erase c)).mpr ?_⟩
        intro x hx
        exact (noNLList_iff cs).mp hnl.2 x (List.mem_of_mem_erase hx)
      rw [splitCh_display_aux (sizeOf (FleetComponent.group n (cs.erase c)))
          (.group n (cs.erase c)) le_rfl hnl' i]
      show (linesSpecList (cs.erase c) (i + 2)).length + 1 = cs.length
      rw [linesSpecList_length_of_vehicles (cs.erase c)
          (fun y hy => hveh y (List.mem_of_mem_erase hy)) (i + 2)]
      have h3 : (cs.erase c).length = cs.length - 1 := List.length_erase_of_mem hm
      have h4 : 0 < cs.length := List.length_pos_of_mem hm
      omega

theorem getD_mem_of_lt {α : Type} (l : List α) (k : Nat) (d : α)
    (h : k < l.length) : l.getD k d ∈ l := by
  rw [List.getD_eq_getElem l d h]
  exact List.getElem_mem h

theorem ask_energy_source_ok_mem (choice s : String) (msgs : List String)
    (h : ask_energy_source choice = .ok (some s, msgs)) : s ∈ sources := by
  unfold ask_energy_source at h
  split at h
  · simp at h
  · split at h
    · simp at h
    · split at h
      · simp at h
      · rename_i n hint hr
        simp only [Except.ok.injEq, Prod.mk.injEq, Option.some.injEq] at h
        obtain ⟨hs, _⟩ := h
        push_neg at hr
        have hk : ((n : Int) - 1).toNat < sources.length := by omega
        rw [← hs]
        exact getD_mem_of_lt sources _ "" hk

theorem handle_empty_name (st : FleetApp) (raw : String) (rest : List String)
    (h : pyStrip raw = "") :
    handle_add_vehicle st (raw :: rest)
      = .ok (st, rest, [MSG_NAME_PROMPT, MSG_EMPTY_NAME]) := by
  simp [handle_add_vehicle, h]

theorem handle_reject_choice (st : FleetApp) (raw choice : String)
    (rest msgs : List String)
    (h1 : pyStrip raw ≠ "") (h2 : ask_energy_source choice = .ok (none, msgs)) :
    handle_add_vehicle st (raw :: choice :: rest)
      = .ok (st, rest, [MSG_NAME_PROMPT] ++ askMenuMsgs ++ msgs) := by
  simp [handle_add_vehicle, h1, h2]

theorem handle_accept_choice (st : FleetApp) (raw choice tag : String)
    (rest msgs : List String)
    (h1 : pyStrip raw ≠ "") (h2 : ask_energy_source choice = .ok (some tag, msgs)) :
    handle_add_vehicle st (raw :: choice :: rest)
      = .ok (add_vehicle st (pyStrip raw) tag, rest,
          [MSG_NAME_PROMPT] ++ askMenuMsgs ++ msgs ++ [MSG_ADDED (pyStrip raw) tag]) := by
  simp [handle_add_vehicle, h1, h2]

theorem pyStrip_all_space (raw : String) (h : ∀ ch ∈ raw.data, pyIsSpace ch = true) :
    pyStrip raw = "" := by
  unfold pyStrip
  rw [show raw.data.dropWhile pyIsSpace = [] from List.dropWhile_eq_nil_iff.mpr h]
  rfl

/-- C4 counterexample: the tag set the code recognizes is not the spec's
English set — `"electricity"` is not offered, while `"электричество"` is. -/
theorem english_tags_not_recognized :
    ¬ "electricity" ∈ sources ∧ "электричество" ∈ sources := by
  decide

/-- C4 (amended): the recognized energy-source tags are exactly the four
Russian strings `["электричество", "бензин", "газ", "гибрид"]`, offered
as a numbered menu; whenever the add-vehicle interaction returns
normally, either the state is unchanged (the selection was rejected
before the Registry was invoked) or the Registry was invoked with a tag
from this set. -/
theorem recognized_sources_russian (st st' : FleetApp)
    (inputs rest out : List String)
    (h : handle_add_vehicle st inputs = .ok (st', rest, out)) :
    sources = ["электричество", "бензин", "газ", "гибрид"]
    ∧ (st' = st ∨ ∃ nm tg, tg ∈ sources ∧ st' = add_vehicle st nm tg) := by
  refine ⟨rfl, ?_⟩
  cases inputs with
  | nil => simp [handle_add_vehicle] at h
  | cons raw rest0 =>
    by_cases hn : pyStrip raw = ""
    · rw [handle_empty_name st raw rest0 hn] at h
      simp only [Except.ok.injEq, Prod.mk.injEq] at h
      exact Or.inl h.1.symm
    · cases rest0 with
      | nil => simp [handle_add_vehicle, hn] at h
      | cons choice rest2 =>
        cases hask : ask_energy_source choice with
        | error e =>
          rw [show handle_add_vehicle st (raw :: choice :: rest2) = .error e from by
            simp [handle_add_vehicle, hn, hask]] at h
          simp at h
        | ok pr =>
          obtain ⟨o, msgs⟩ := pr
          cases o with
          | none =>
            rw [handle_reject_choice st raw choice rest2 msgs hn hask] at h
            simp only [Except.ok.injEq, Prod.mk.injEq] at h
            exact Or.inl h.1.symm
          | some tag =>
            rw [handle_accept_choice st raw choice tag rest2 msgs hn hask] at h
            simp only [Except.ok.injEq, Prod.mk.injEq] at h
            exact Or.inr ⟨pyStrip raw, tag,
              ask_energy_source_ok_mem choice tag msgs hask, h.1.symm⟩

theorem recognized_sources_russian_witness :
    handle_add_vehicle appInit ["Bus", "1"]
      = .ok (⟨[.group "Электричество" [.vehicle "Bus" "электричество"]],
              [("электричество", 0)]⟩,
             [], [MSG_NAME_PROMPT] ++ askMenuMsgs ++ [MSG_ADDED "Bus" "электричество"])
    ∧ (sources = ["электричество", "бензин", "газ", "гибрид"]
       ∧ (FleetApp.mk [.group "Электричество" [.vehicle "Bus" "электричество"]]
            [("электричество", 0)] = appInit
          ∨ ∃ nm tg, tg ∈ sources
              ∧ FleetApp.mk [.group "Электричество" [.vehicle "Bus" "электричество"]]
                  [("электричество", 0)] = add_vehicle appInit nm tg)) :=
  ⟨by decide,
   recognized_sources_russian appInit
     (FleetApp.mk [.group "Электричество" [.vehicle "Bus" "электричество"]]
       [("электричество", 0)])
     ["Bus", "1"] []
     ([MSG_NAME_PROMPT] ++ askMenuMsgs ++ [MSG_ADDED "Bus" "электричество"])
     (by decide)⟩

/-- C5 counterexample: with pending input `["", "Bus", "1"]` the empty
name is rejected, but the handler returns to the main menu at once:
`"Bus"` and `"1"` are left unread and no vehicle is created — there is no
re-prompt for the name within the operation. -/
theorem empty_name_not_reprompted :
    handle_add_vehicle appInit ["", "Bus", "1"]
      = .ok (appInit, ["Bus", "1"], [MSG_NAME_PROMPT, MSG_EMPTY_NAME]) := by
  decide

/-- C5 (amended): on an empty name, or a non-numeric or out-of-range
energy-source selection, the handler prints the rejection message and
returns (abandoning the add operation back to the main menu, without
re-prompting within it); the tree is left exactly as it was and the
Registry is never invoked for that attempt. -/
theorem invalid_input_rejected_state_unchanged (st : FleetApp)
    (raw choice : String) (rest msgs : List String) :
    (pyStrip raw = "" →
      handle_add_vehicle st (raw :: rest)
        = .ok (st, rest, [MSG_NAME_PROMPT, MSG_EMPTY_NAME]))
    ∧ (pyStrip raw ≠ "" → ask_energy_source choice = .ok (none, msgs) →
      handle_add_vehicle st (raw :: choice :: rest)
        = .ok (st, rest, [MSG_NAME_PROMPT] ++ askMenuMsgs ++ msgs)) :=
  ⟨fun h => handle_empty_name st raw rest h,
   fun h1 h2 => handle_reject_choice st raw choice rest msgs h1 h2⟩

theorem invalid_input_rejected_state_unchanged_witness :
    handle_add_vehicle appInit ["   ", "Bus", "1"]
      = .ok (appInit, ["Bus", "1"], [MSG_NAME_PROMPT, MSG_EMPTY_NAME])
    ∧ handle_add_vehicle appInit ["Bus", "9"]
      = .ok (appInit, [], [MSG_NAME_PROMPT] ++ askMenuMsgs ++ [MSG_NO_SUCH_SOURCE]) :=
  ⟨(invalid_input_rejected_state_unchanged appInit "   " "x" ["Bus", "1"] []).1
      (by decide),
   (invalid_input_rejected_state_unchanged appInit "Bus" "9" [] [MSG_NO_SUCH_SOURCE]).2
      (by decide) (by decide)⟩

/-- C8: the validation guard is incomplete: `"²".isdigit()` is `True`
(the superscript digit has Unicode `Numeric_Type=Digit`), so the guard
passes, and `int("²")` then raises `ValueError` (it requires
`Numeric_Type=Decimal`); the exception escapes `_ask_energy_source` and
`_handle_add_vehicle`, crashing the process instead of re-prompting. -/
theorem superscript_selection_raises :
    pyIsDigitStr "²" = true
    ∧ handle_add_vehicle appInit ["Bus", "²"]
        = .error (.valueError "invalid literal for int() with base 10: '²'") := by
  constructor
  · decide
  · decide

/-- C9: `_handle_add_vehicle` strips the entered name before validating:
a name of only whitespace strips to the empty string and is rejected with
the tree unchanged, and on a successful add the Registry receives the
stripped name — the created leaf stores `pyStrip raw`, and (under the
state invariant) is appended to its tag's group bearing that name. -/
theorem name_stripped_before_validation (st : FleetApp) (raw choice tag : String)
    (rest msgs : List String) :
    ((∀ ch ∈ raw.data, pyIsSpace ch = true) →
      handle_add_vehicle st (raw :: rest)
        = .ok (st, rest, [MSG_NAME_PROMPT, MSG_EMPTY_NAME]))
    ∧ (pyStrip raw ≠ "" → ask_energy_source choice = .ok (some tag, msgs) →
      handle_add_vehicle st (raw :: choice :: rest)
        = .ok (add_vehicle st (pyStrip raw) tag, rest,
            [MSG_NAME_PROMPT] ++ askMenuMsgs ++ msgs ++ [MSG_ADDED (pyStrip raw) tag]))
    ∧ (InvApp st → vehiclesOfTag (add_vehicle st (pyStrip raw) tag) tag
        = vehiclesOfTag st tag ++ [.vehicle (pyStrip raw) tag]) := by
  refine ⟨?_, ?_, ?_⟩
  · intro h
    exact handle_empty_name st raw rest (pyStrip_all_space raw h)
  · intro h1 h2
    exact handle_accept_choice st raw choice tag rest msgs h1 h2
  · intro hinv
    exact (add_vehicle_spec st (pyStrip raw) tag hinv).2.2.2.1

theorem runAdds_leaf_count_and_grouping_witness :
    (∀ c ∈ ([("Bus-1", "электричество"), ("Bus-1", "электричество"),
        ("Bus-2", "газ")] : List (String × String)), c.1 ≠ "" ∧ c.2 ∈ sources)
    ∧ (countLeaves (.group ROOT_NAME (runAdds appInit [("Bus-1", "электричество"),
          ("Bus-1", "электричество"), ("Bus-2", "газ")]).root_children) = 3
       ∧ ∀ p ∈ (runAdds appInit [("Bus-1", "электричество"),
            ("Bus-1", "электричество"), ("Bus-2", "газ")]).energy_groups,
          childrenAt (runAdds appInit [("Bus-1", "электричество"),
              ("Bus-1", "электричество"), ("Bus-2", "газ")]).root_children p.2
            = (([("Bus-1", "электричество"), ("Bus-1", "электричество"),
                ("Bus-2", "газ")] : List (String × String)).filter
                  (fun c => c.2 == p.1)).map (fun c => FleetComponent.vehicle c.1 c.2)) :=
  ⟨by decide, runAdds_leaf_count_and_grouping _ (by decide)⟩
